import Mathlib

/-!
Verification of the nx-core library: build-time integer type selection
(include/nx/core/integer.h, include/nx/core/mpl.h) and the bit
manipulation engine (include/nx/core/bits.h).

The C++ templates are embedded shallowly:
* a platform's primitive integer widths become an explicit `Platform`
  record (widths are `sizeof(T) * CHAR_BIT`, so comparing `sizeof`
  values is the same as comparing bit widths);
* template metafunctions on types become Lean functions on `CandType`;
* unsigned machine integers of width `w` become `Nat` values `< 2 ^ w`,
  with wraparound written as `% 2 ^ w` and bitwise complement as
  `complement w`;
* `static_assert` failures become explicit `Bool` flags (`buildHalts`,
  `maskAssertOk`): `true` means the diagnostic fires and compilation
  stops.
-/

/-- The candidate primitive integer types scanned by
`IntegralLeastRangeSearch` (integer.h lines 96-135), in the order the
nested `Conditional` tries them: char, short, int, long, long long. -/
inductive CandType where
  | char
  | short
  | int
  | long
  | longlong
deriving DecidableEq, Fintype

/-- A build platform: the bit width of each candidate type
(`Bits<T>::Size()` = `sizeof(T) * CHAR_BIT`).  The recorded facts are
the C++ guarantees `8 <= CHAR_BIT` ordering collapsed to what the
proofs use: widths are positive and non-decreasing along the candidate
order. -/
structure Platform where
  charBits : Nat
  shortBits : Nat
  intBits : Nat
  longBits : Nat
  longlongBits : Nat
  char_pos : 0 < charBits
  char_le_short : charBits ≤ shortBits
  short_le_int : shortBits ≤ intBits
  int_le_long : intBits ≤ longBits
  long_le_longlong : longBits ≤ longlongBits

/-- `Bits<T>::Size()` (bits.h lines 32-35) for each candidate type. -/
def bitSize (p : Platform) : CandType → Nat
  | .char => p.charBits
  | .short => p.shortBits
  | .int => p.intBits
  | .long => p.longBits
  | .longlong => p.longlongBits

/-- `bits::InRange<T>(min, max)` (bits.h lines 36-39):
`min <= Size<T>() && Size<T>() <= max`. -/
def inRange (p : Platform) (lo hi : Nat) (t : CandType) : Bool :=
  decide (lo ≤ bitSize p t) && decide (bitSize p t ≤ hi)

/-- The raw candidate scan of `IntegralLeastRangeSearch`
(integer.h lines 103-127): the innermost nested `Conditional` chain,
which yields the first candidate whose width is in range, or
`InvalidType` (here `none`). -/
def integralLeastRangeSearchRaw (p : Platform) (lo hi : Nat) :
    Option CandType :=
  if inRange p lo hi .char then some .char
  else if inRange p lo hi .short then some .short
  else if inRange p lo hi .int then some .int
  else if inRange p lo hi .long then some .long
  else if inRange p lo hi .longlong then some .longlong
  else none

/-- `PreferIntegralType<T, Preferred>` (integer.h lines 40-55): when
both types are integral and `sizeof(T) == sizeof(Preferred)`, the
preferred type replaces `T`; otherwise `T` is kept.  Both arguments
here are candidate (hence integral) types; equality of `sizeof` is
equality of bit widths. -/
def preferIntegralType (p : Platform) (t pref : CandType) : CandType :=
  if bitSize p t = bitSize p pref then pref else t

/-- The outcome of a selection: a concrete candidate type with the
requested signedness applied by `PreferIntegralSign` /
`SetSigned` (integer.h lines 57-71, mpl.h lines 250-257). -/
structure SelectedType where
  base : CandType
  isSigned : Bool
deriving DecidableEq

/-- `IntegralLeastRangeSearch<kSigned, kBitMin, kBitMax>`
(integer.h lines 96-135): raw scan, then prefer short over a same-width
char-width match, then prefer int over any same-width match, then apply
the requested signedness.  `InvalidType` (`none`) passes through every
stage unchanged, because the `PreferIntegral*` primary templates leave
non-integral types alone. -/
def integralLeastRangeSearch (p : Platform) (sgn : Bool) (lo hi : Nat) :
    Option SelectedType :=
  (integralLeastRangeSearchRaw p lo hi).map
    (fun t =>
      ⟨preferIntegralType p (preferIntegralType p t .short) .int, sgn⟩)

/-- Result of `CheckValidType` (mpl.h lines 188-214): the `value`
member (`isValid`), whether the `static_assert` in the
`CheckValidType<true, InvalidType, Fallback>` specialization fires and
stops the build (`buildHalts`), and the provided `type` member. -/
structure CheckResult where
  isValid : Bool
  buildHalts : Bool
  resolved : SelectedType
deriving DecidableEq

/-- `CheckValidType<kAssert, T, Fallback>` (mpl.h lines 188-214): a
valid type is passed through; `InvalidType` resolves to the fallback,
and additionally halts the build when `kAssert` is true. -/
def checkValidType (kAssert : Bool) (t : Option SelectedType)
    (fallback : SelectedType) : CheckResult :=
  match t with
  | some ty => ⟨true, false, ty⟩
  | none => ⟨false, kAssert, fallback⟩

/-- `IntegralLeastRangeTraits` (integer.h lines 143-154):
`AssertValidType` applied to the search result, with fallback type
`int` (in the C++ source a plain signed `int`). -/
def integralLeastRangeTraits (p : Platform) (sgn : Bool) (lo hi : Nat) :
    CheckResult :=
  checkValidType true (integralLeastRangeSearch p sgn lo hi)
    ⟨.int, true⟩

/-- A standard LP64 platform (char 8, short 16, int 32, long 64,
long long 64). -/
def lp64 : Platform :=
  ⟨8, 16, 32, 64, 64, by decide, by decide, by decide, by decide,
    by decide⟩

/-- A platform on which char and short share a width (16 bits), as on
some DSPs; exercises the char/short tie-break. -/
def dsp16 : Platform :=
  ⟨16, 16, 32, 32, 64, by decide, by decide, by decide, by decide,
    by decide⟩

theorem bitSize_preferIntegralType (p : Platform) (t pref : CandType) :
    bitSize p (preferIntegralType p t pref) = bitSize p t := by
  unfold preferIntegralType
  split
  · exact (by assumption : bitSize p t = bitSize p pref).symm
  · rfl

theorem inRange_iff (p : Platform) (lo hi : Nat) (t : CandType) :
    inRange p lo hi t = true ↔
      lo ≤ bitSize p t ∧ bitSize p t ≤ hi := by
  simp [inRange]

theorem integralLeastRangeSearchRaw_spec (p : Platform) (lo hi : Nat)
    (hsat : ∃ t, inRange p lo hi t = true) :
    ∃ t, integralLeastRangeSearchRaw p lo hi = some t ∧
      inRange p lo hi t = true ∧
      ∀ u, bitSize p u < bitSize p t → inRange p lo hi u = false := by
  have hcs := p.char_le_short
  have hsi := p.short_le_int
  have hil := p.int_le_long
  have hll := p.long_le_longlong
  by_cases h1 : inRange p lo hi CandType.char
  · refine ⟨.char, by simp [integralLeastRangeSearchRaw, h1], h1, ?_⟩
    intro u hu
    exfalso
    cases u <;> simp only [bitSize] at hu <;> omega
  · by_cases h2 : inRange p lo hi CandType.short
    · refine ⟨.short, by simp [integralLeastRangeSearchRaw, h1, h2], h2, ?_⟩
      intro u hu
      cases u
      · simpa using h1
      all_goals (exfalso; simp only [bitSize] at hu; omega)
    · by_cases h3 : inRange p lo hi CandType.int
      · refine ⟨.int, by simp [integralLeastRangeSearchRaw, h1, h2, h3],
          h3, ?_⟩
        intro u hu
        cases u
        · simpa using h1
        · simpa using h2
        all_goals (exfalso; simp only [bitSize] at hu; omega)
      · by_cases h4 : inRange p lo hi CandType.long
        · refine ⟨.long,
            by simp [integralLeastRangeSearchRaw, h1, h2, h3, h4],
            h4, ?_⟩
          intro u hu
          cases u
          · simpa using h1
          · simpa using h2
          · simpa using h3
          all_goals (exfalso; simp only [bitSize] at hu; omega)
        · by_cases h5 : inRange p lo hi CandType.longlong
          · refine ⟨.longlong,
              by simp [integralLeastRangeSearchRaw, h1, h2, h3, h4, h5],
              h5, ?_⟩
            intro u hu
            cases u
            · simpa using h1
            · simpa using h2
            · simpa using h3
            · simpa using h4
            · exfalso; simp only [bitSize] at hu; omega
          · exfalso
            obtain ⟨t, ht⟩ := hsat
            cases t <;> contradiction

/-- C1: for every satisfiable request `(signed, minBits, maxBits)` the
type selected by `IntegralLeastRangeSearch` (and hence by
`integral_least_range_t` through `IntegralLeastRangeTraits`, which
resolves to the same type without halting the build) has bit width in
`[minBits, maxBits]`, carries exactly the requested signedness, and no
candidate of strictly smaller bit width has its width in range. -/
theorem selection_width_signedness_and_minimality
    (p : Platform) (sgn : Bool) (lo hi : Nat)
    (hsat : ∃ t, inRange p lo hi t = true) :
    ∃ s, integralLeastRangeSearch p sgn lo hi = some s ∧
      integralLeastRangeTraits p sgn lo hi = ⟨true, false, s⟩ ∧
      lo ≤ bitSize p s.base ∧ bitSize p s.base ≤ hi ∧
      s.isSigned = sgn ∧
      ∀ u, bitSize p u < bitSize p s.base → inRange p lo hi u = false := by
  obtain ⟨t, hraw, htin, hmin⟩ := integralLeastRangeSearchRaw_spec p lo hi hsat
  refine ⟨⟨preferIntegralType p (preferIntegralType p t .short) .int, sgn⟩,
    by simp [integralLeastRangeSearch, hraw], ?_, ?_, ?_, rfl, ?_⟩
  · simp [integralLeastRangeTraits, checkValidType,
      integralLeastRangeSearch, hraw]
  · have hw : bitSize p (preferIntegralType p
        (preferIntegralType p t .short) .int) = bitSize p t := by
      rw [bitSize_preferIntegralType, bitSize_preferIntegralType]
    rw [hw]
    exact ((inRange_iff p lo hi t).mp htin).1
  · have hw : bitSize p (preferIntegralType p
        (preferIntegralType p t .short) .int) = bitSize p t := by
      rw [bitSize_preferIntegralType, bitSize_preferIntegralType]
    rw [hw]
    exact ((inRange_iff p lo hi t).mp htin).2
  · intro u hu
    apply hmin
    have hw : bitSize p (preferIntegralType p
        (preferIntegralType p t .short) .int) = bitSize p t := by
      rw [bitSize_preferIntegralType, bitSize_preferIntegralType]
    rw [hw] at hu
    exact hu

/-- C1 witness: on LP64 the request (unsigned, 9..32 bits) is
satisfiable, so the selection theorem applies. -/
theorem selection_width_signedness_and_minimality_witness :
    ∃ s, integralLeastRangeSearch lp64 false 9 32 = some s ∧
      integralLeastRangeTraits lp64 false 9 32 = ⟨true, false, s⟩ ∧
      9 ≤ bitSize lp64 s.base ∧ bitSize lp64 s.base ≤ 32 ∧
      s.isSigned = false ∧
      ∀ u, bitSize lp64 u < bitSize lp64 s.base →
        inRange lp64 9 32 u = false :=
  selection_width_signedness_and_minimality lp64 false 9 32
    ⟨CandType.short, by decide⟩

/-- C2: tie-break preferences.  If the raw smallest-width match has the
width of the platform's short type, the final selection is never the
char candidate and keeps the short width; if the raw match has the
width of the platform's int type, the final selection is exactly the
int candidate; and the requested signedness is applied to the final
choice. -/
theorem selection_tie_break_prefers_short_and_int
    (p : Platform) (sgn : Bool) (lo hi : Nat) (t : CandType)
    (hraw : integralLeastRangeSearchRaw p lo hi = some t) :
    ∃ s, integralLeastRangeSearch p sgn lo hi = some s ∧
      s.isSigned = sgn ∧
      (bitSize p t = p.shortBits →
        s.base ≠ CandType.char ∧ bitSize p s.base = p.shortBits) ∧
      (bitSize p t = p.intBits → s.base = CandType.int) := by
  refine ⟨⟨preferIntegralType p (preferIntegralType p t .short) .int, sgn⟩,
    by simp [integralLeastRangeSearch, hraw], rfl, ?_, ?_⟩
  · intro hts
    have hinner : preferIntegralType p t .short = .short := by
      unfold preferIntegralType
      rw [if_pos]
      exact hts
    constructor
    · show preferIntegralType p (preferIntegralType p t .short)
        CandType.int ≠ CandType.char
      rw [hinner]
      unfold preferIntegralType
      split <;> simp
    · show bitSize p (preferIntegralType p (preferIntegralType p t .short)
        CandType.int) = p.shortBits
      rw [bitSize_preferIntegralType, hinner]
      rfl
  · intro hti
    have hwidth : bitSize p (preferIntegralType p t .short) =
        bitSize p CandType.int := by
      rw [bitSize_preferIntegralType]
      exact hti
    show preferIntegralType p (preferIntegralType p t .short)
      CandType.int = CandType.int
    unfold preferIntegralType
    rw [if_pos]
    exact hwidth

/-- C2 witness: on a 16-bit-char platform the raw match for an exact
16-bit request is char, whose width equals the short width, so the
tie-break fires. -/
theorem selection_tie_break_prefers_short_and_int_witness :
    ∃ s, integralLeastRangeSearch dsp16 true 16 16 = some s ∧
      s.isSigned = true ∧
      (bitSize dsp16 CandType.char = dsp16.shortBits →
        s.base ≠ CandType.char ∧ bitSize dsp16 s.base = dsp16.shortBits) ∧
      (bitSize dsp16 CandType.char = dsp16.intBits →
        s.base = CandType.int) :=
  selection_tie_break_prefers_short_and_int dsp16 true 16 16
    CandType.char (by decide)

/-- C3: when no candidate width lies in the requested range the search
yields `InvalidType` (`none`); the asserting entry point
(`IntegralLeastRangeTraits`, i.e. `AssertValidType`) halts the build,
while the non-asserting entry point (`CheckValidType` with
`kAssert = false`, i.e. `IsValidType`) does not halt and silently
resolves to the caller's fallback type. -/
theorem selection_failure_halts_or_falls_back
    (p : Platform) (sgn : Bool) (lo hi : Nat) (fb : SelectedType)
    (hunsat : ∀ t, inRange p lo hi t = false) :
    integralLeastRangeSearch p sgn lo hi = none ∧
    (integralLeastRangeTraits p sgn lo hi).buildHalts = true ∧
    (checkValidType false (integralLeastRangeSearch p sgn lo hi)
      fb).buildHalts = false ∧
    (checkValidType false (integralLeastRangeSearch p sgn lo hi)
      fb).resolved = fb := by
  have hraw : integralLeastRangeSearchRaw p lo hi = none := by
    simp [integralLeastRangeSearchRaw, hunsat]
  have hsearch : integralLeastRangeSearch p sgn lo hi = none := by
    simp [integralLeastRangeSearch, hraw]
  refine ⟨hsearch, ?_, ?_, ?_⟩ <;>
    simp [integralLeastRangeTraits, checkValidType, hsearch]

/-- C3 witness: on LP64 no candidate is at least 65 bits wide. -/
theorem selection_failure_halts_or_falls_back_witness :
    integralLeastRangeSearch lp64 true 65 100 = none ∧
    (integralLeastRangeTraits lp64 true 65 100).buildHalts = true ∧
    (checkValidType false (integralLeastRangeSearch lp64 true 65 100)
      ⟨CandType.long, false⟩).buildHalts = false ∧
    (checkValidType false (integralLeastRangeSearch lp64 true 65 100)
      ⟨CandType.long, false⟩).resolved = ⟨CandType.long, false⟩ :=
  selection_failure_halts_or_falls_back lp64 true 65 100
    ⟨CandType.long, false⟩ (by decide)

/-- Bitwise complement `~x` of a `w`-bit unsigned value, i.e.
`~static_cast<T>(0) ^ x` for a type `T` of width `w`. -/
def complement (w x : Nat) : Nat := (2 ^ w - 1) ^^^ x

/-- `detail::assign<T, mask_, value_>` (bits.h lines 353-395): the
five-way strategy dispatch over mutually exclusive `EnableIf`
conditions (empty mask, full mask, all masked bits of the value set,
all masked bits clear, mixed), written as an equivalent `if` chain. -/
def assignStatic (w m v d : Nat) : Nat :=
  if m = 0 then d
  else if m = 2 ^ w - 1 then v
  else if m &&& v = m then d ||| m
  else if m &&& v = 0 then d &&& complement w m
  else (v &&& m) ||| (d &&& complement w m)

/-- The generic merge `detail::assign(mask, value, data)`
(bits.h lines 450-454): `*data = (value & mask) | (*data & ~mask)`. -/
def assignGeneric (w m v d : Nat) : Nat :=
  (v &&& m) ||| (d &&& complement w m)

/-- `detail::get(mask, data)` (bits.h lines 400-404):
`*data & mask`. -/
def bits.get (m d : Nat) : Nat := d &&& m

theorem testBit_complement (w x i : Nat) :
    (complement w x).testBit i = ((decide (i < w)).xor (x.testBit i)) := by
  simp [complement, Nat.testBit_xor, Nat.testBit_two_pow_sub_one]

theorem testBit_eq_false_of_lt (x w i : Nat) (hx : x < 2 ^ w)
    (hi : w ≤ i) : x.testBit i = false :=
  Nat.testBit_lt_two_pow
    (lt_of_lt_of_le hx (Nat.pow_le_pow_right (by omega) hi))

/-- C4: for every mask, value and initial word of a `w`-bit unsigned
type, the five-way dispatched static `assign` leaves the word in
exactly the state produced by the generic merge formula. -/
theorem assign_strategy_table_eq_generic (w m v d : Nat)
    (hm : m < 2 ^ w) (hv : v < 2 ^ w) (hd : d < 2 ^ w) :
    assignStatic w m v d = assignGeneric w m v d := by
  unfold assignStatic assignGeneric
  by_cases h0 : m = 0
  · subst h0
    simp only [if_pos rfl]
    apply Nat.eq_of_testBit_eq
    intro i
    simp only [Nat.testBit_lor, Nat.testBit_land, testBit_complement,
      Nat.zero_testBit]
    by_cases hi : i < w
    · simp [hi]
    · simp [hi, testBit_eq_false_of_lt d w i hd (by omega)]
  · rw [if_neg h0]
    by_cases hfull : m = 2 ^ w - 1
    · rw [if_pos hfull]
      subst hfull
      apply Nat.eq_of_testBit_eq
      intro i
      simp only [Nat.testBit_lor, Nat.testBit_land, testBit_complement,
        Nat.testBit_two_pow_sub_one]
      by_cases hi : i < w
      · simp [hi]
      · simp [hi, testBit_eq_false_of_lt v w i hv (by omega)]
    · rw [if_neg hfull]
      by_cases hset : m &&& v = m
      · rw [if_pos hset]
        apply Nat.eq_of_testBit_eq
        intro i
        have hmv := congrArg (fun x => Nat.testBit x i) hset
        simp only [Nat.testBit_land] at hmv
        simp only [Nat.testBit_lor, Nat.testBit_land, testBit_complement]
        by_cases hi : i < w
        · simp only [decide_eq_true hi]
          cases hm1 : m.testBit i <;> cases hv1 : v.testBit i <;>
            cases hd1 : d.testBit i <;> simp_all
        · simp [hi, testBit_eq_false_of_lt m w i hm (by omega),
            testBit_eq_false_of_lt d w i hd (by omega)]
      · rw [if_neg hset]
        by_cases hclr : m &&& v = 0
        · rw [if_pos hclr]
          apply Nat.eq_of_testBit_eq
          intro i
          have hmv := congrArg (fun x => Nat.testBit x i) hclr
          simp only [Nat.testBit_land, Nat.zero_testBit] at hmv
          simp only [Nat.testBit_lor, Nat.testBit_land, testBit_complement]
          by_cases hi : i < w
          · simp only [decide_eq_true hi]
            cases hm1 : m.testBit i <;> cases hv1 : v.testBit i <;>
              cases hd1 : d.testBit i <;> simp_all
          · simp [hi, testBit_eq_false_of_lt m w i hm (by omega),
              testBit_eq_false_of_lt d w i hd (by omega)]
        · rw [if_neg hclr]

/-- C4 witness: a mixed 8-bit instance. -/
theorem assign_strategy_table_eq_generic_witness :
    assignStatic 8 12 10 86 = assignGeneric 8 12 10 86 :=
  assign_strategy_table_eq_generic 8 12 10 86 (by decide) (by decide)
    (by decide)

/-- C5: after the generic `assign(mask, value, data)`, `get(mask, data)`
returns `value & mask`, and every bit position outside the mask keeps
the value it had before the assignment. -/
theorem assign_postcondition_and_frame (w m v d : Nat)
    (hm : m < 2 ^ w) (hd : d < 2 ^ w) :
    bits.get m (assignGeneric w m v d) = v &&& m ∧
    ∀ i, m.testBit i = false →
      (assignGeneric w m v d).testBit i = d.testBit i := by
  constructor
  · unfold bits.get assignGeneric
    apply Nat.eq_of_testBit_eq
    intro i
    simp only [Nat.testBit_land, Nat.testBit_lor, testBit_complement]
    by_cases hi : i < w
    · simp only [decide_eq_true hi]
      cases m.testBit i <;> cases v.testBit i <;> cases d.testBit i <;>
        simp
    · simp [testBit_eq_false_of_lt m w i hm (by omega)]
  · intro i hmi
    unfold assignGeneric
    simp only [Nat.testBit_lor, Nat.testBit_land, testBit_complement, hmi]
    by_cases hi : i < w
    · simp [hi]
    · simp [hi, testBit_eq_false_of_lt d w i hd (by omega)]

/-- C5 witness: an 8-bit instance. -/
theorem assign_postcondition_and_frame_witness :
    bits.get 12 (assignGeneric 8 12 10 86) = 10 &&& 12 ∧
    ∀ i, Nat.testBit 12 i = false →
      (assignGeneric 8 12 10 86).testBit i = Nat.testBit 86 i :=
  assign_postcondition_and_frame 8 12 10 86 (by decide) (by decide)

/-- Static `detail::BitScanForward<T, value_>` (bits.h lines 288-299):
0 when the value is zero or has its lowest bit set, else one plus the
recursion on the value shifted right once.  The same recursion defines
`mpl::BitScanForward` (mpl.h lines 358-381), whose zero case fails a
static assertion but still defines the value 0. -/
def bitScanForwardStatic (v : Nat) : Nat :=
  if v = 0 ∨ v % 2 = 1 then 0
  else 1 + bitScanForwardStatic (v / 2)
termination_by v
decreasing_by omega

/-- Static `detail::BitScanReverse<T, value_>` (bits.h lines 301-319):
0 for value 0 (the documented sentinel) and for value 1, else one plus
the recursion on the value shifted right once. -/
def bitScanReverseStatic (v : Nat) : Nat :=
  if v = 0 then 0
  else if v = 1 then 0
  else 1 + bitScanReverseStatic (v / 2)
termination_by v
decreasing_by omega

/-- Static `detail::PopCount<T, value_>` (bits.h lines 321-332):
0 for value 0, else the lowest bit plus the recursion on the value
shifted right once. -/
def popCountStatic (v : Nat) : Nat :=
  if v = 0 then 0
  else v % 2 + popCountStatic (v / 2)
termination_by v
decreasing_by omega

theorem bitScanForwardStatic_spec (v : Nat) : v ≠ 0 →
    v.testBit (bitScanForwardStatic v) = true ∧
    ∀ j, j < bitScanForwardStatic v → v.testBit j = false := by
  induction v using Nat.strong_induction_on with
  | _ v ih =>
    intro hv
    rw [bitScanForwardStatic]
    by_cases hodd : v % 2 = 1
    · rw [if_pos (Or.inr hodd)]
      refine ⟨by simp [Nat.testBit_zero, hodd], ?_⟩
      intro j hj
      omega
    · rw [if_neg (by omega)]
      have hlt : v / 2 < v := by omega
      have h2 : v / 2 ≠ 0 := by omega
      obtain ⟨ih1, ih2⟩ := ih (v / 2) hlt h2
      constructor
      · rw [Nat.add_comm 1, Nat.testBit_succ]
        exact ih1
      · intro j hj
        cases j with
        | zero => simp [Nat.testBit_zero, hodd]
        | succ j' =>
          rw [Nat.testBit_succ]
          exact ih2 j' (by omega)

theorem bitScanReverseStatic_spec (v : Nat) : v ≠ 0 →
    v.testBit (bitScanReverseStatic v) = true ∧
    ∀ j, bitScanReverseStatic v < j → v.testBit j = false := by
  induction v using Nat.strong_induction_on with
  | _ v ih =>
    intro hv
    rw [bitScanReverseStatic]
    rw [if_neg hv]
    by_cases hone : v = 1
    · rw [if_pos hone]
      subst hone
      refine ⟨by simp [Nat.testBit_zero], ?_⟩
      intro j hj
      cases j with
      | zero => omega
      | succ j' => simp [Nat.testBit_succ]
    · rw [if_neg hone]
      have hlt : v / 2 < v := by omega
      have h2 : v / 2 ≠ 0 := by omega
      obtain ⟨ih1, ih2⟩ := ih (v / 2) hlt h2
      constructor
      · rw [Nat.add_comm 1, Nat.testBit_succ]
        exact ih1
      · intro j hj
        cases j with
        | zero => omega
        | succ j' =>
          rw [Nat.testBit_succ]
          exact ih2 j' (by omega)

/-- Modelled from the spec: the platform count-trailing-zeros
capability (the `__builtin_ctz` family), an external collaborator of
bits.h ("given an unsigned value, produce the index of its lowest set
bit").  `v ^^^ (v &&& (v - 1))` isolates the lowest set bit of a
nonzero value; `log2` returns its index.  Zero-extending the operand
(the width dispatch) does not change the result. -/
def ctzIntrinsic (v : Nat) : Nat := Nat.log2 (v ^^^ (v &&& (v - 1)))

/-- Modelled from the spec: the platform count-leading-zeros capability
(the `__builtin_clz` family) on an operand register of width `wi`: a
nonzero value has `wi - 1 - log2 v` leading zero bits. -/
def clzIntrinsic (wi v : Nat) : Nat := wi - 1 - Nat.log2 v

/-- Modelled from the spec: the population-count capability (the
`__builtin_popcount` family): the number of set bits, unchanged by zero
extension. -/
def popCountIntrinsic (v : Nat) : Nat := (Nat.bits v).count true

/-- Unsigned subtraction in the `unsigned int` arithmetic (width
`wint`) in which the C++ expression `Size<T>() - 1 - clz` is
evaluated. -/
def usub (wint a b : Nat) : Nat :=
  (a + (2 ^ wint - b % 2 ^ wint)) % 2 ^ wint

/-- Runtime `detail::BitScanForward` (bits.h lines 79-112, GCC branch):
guard against zero, then the ctz intrinsic on the zero-extended value
(each of the three width dispatches computes the ctz of the same
zero-extended value). -/
def bitScanForwardRT (v : Nat) : Nat :=
  if v = 0 then 0 else ctzIntrinsic v

/-- The operand register width the runtime dispatch selects for a type
of width `w`: the narrowest of unsigned int / unsigned long / unsigned
long long that the type fits in (the `Fits<T, U>` `EnableIf`
conditions, bits.h lines 79-149). -/
def intrinsicWidth (p : Platform) (w : Nat) : Nat :=
  if w ≤ p.intBits then p.intBits
  else if w ≤ p.longBits then p.longBits
  else p.longlongBits

/-- Runtime `detail::BitScanReverse` (bits.h lines 116-149, GCC
branch) for a type of width `w`: guard against zero, then
`Size<T>() - 1 - clz(value)` where the clz intrinsic operates on the
dispatch-selected register width and the subtraction is performed in
`unsigned int` arithmetic. -/
def bitScanReverseRT (p : Platform) (w v : Nat) : Nat :=
  if v = 0 then 0
  else usub p.intBits (w - 1) (clzIntrinsic (intrinsicWidth p w) v)

/-- Runtime `detail::PopCount` (bits.h lines 153-183, GCC branch): the
popcount intrinsic on the zero-extended value. -/
def popCountRT (v : Nat) : Nat := popCountIntrinsic v

/-- C6 (code bug): on LP64 the runtime `ScanReverse` for an 8-bit type
evaluates `Size<T>() - 1 - __builtin_clz(value)` with the type's own
width (8) but the int-width register's leading-zero count, so for
v = 1 the unsigned arithmetic wraps to 8 - 1 - 31 mod 2^32 =
4294967272 instead of 0, the index of the highest set bit; the static
recursive-halving form returns 0, and the same runtime expression at
int width (32) also returns 0. -/
theorem scan_reverse_runtime_narrow_width_wraps :
    bitScanReverseRT lp64 8 1 = 4294967272 ∧
    bitScanReverseStatic 1 = 0 ∧
    bitScanReverseRT lp64 32 1 = 0 ∧
    bitScanForwardRT 1 = 0 ∧ bitScanForwardStatic 1 = 0 := by
  refine ⟨?_, ?_, ?_, ?_, ?_⟩
  · norm_num [bitScanReverseRT, usub, clzIntrinsic, intrinsicWidth,
      lp64, Nat.log2]
  · simp [bitScanReverseStatic]
  · norm_num [bitScanReverseRT, usub, clzIntrinsic, intrinsicWidth,
      lp64, Nat.log2]
  · norm_num [bitScanForwardRT, ctzIntrinsic, Nat.log2]
  · simp [bitScanForwardStatic]

/-- Runtime variadic `detail::Mask<T>` (bits.h lines 335-342) on a
list of indices: 0 for no arguments, else
`(static_cast<T>(1u) << index) | Mask<T>(rest...)` where the shift of
the promoted operand produces `2 ^ index` and each return value is
truncated to the type's width `w`. -/
def maskValue (w : Nat) : List Nat → Nat
  | [] => 0
  | i :: rest => (2 ^ i ||| maskValue w rest) % 2 ^ w

/-- The build-time `detail::Mask<T, index_, rest_...>` (bits.h lines
343-347) evaluates `static_assert(index_ < bits::Size<T>())` for the
first index only; the remaining indices go to the runtime variadic
form unchecked.  `true` means the assertion passes and the build
proceeds. -/
def maskAssertOk (w : Nat) : List Nat → Bool
  | [] => true
  | i :: _ => decide (i < w)

/-- C7 counterexample: the build-time `Mask` over an 8-bit type with
indices 0 and 9 passes its static assertion (only the first index is
checked) although 9 is out of range, and the index-9 contribution is
silently truncated away, so the mask evaluates to 1. -/
theorem mask_static_accepts_out_of_range_tail_index :
    maskAssertOk 8 [0, 9] = true ∧ 8 ≤ 9 ∧ maskValue 8 [0, 9] = 1 := by
  decide

theorem maskValue_testBit (w : Nat) (l : List Nat)
    (hall : ∀ i ∈ l, i < w) (j : Nat) :
    (maskValue w l).testBit j = decide (j ∈ l) := by
  induction l with
  | nil => simp [maskValue]
  | cons i rest ih =>
    have hi : i < w := hall i (by simp)
    have hrest : ∀ x ∈ rest, x < w := fun x hx => hall x (by simp [hx])
    rw [maskValue]
    simp only [Nat.testBit_mod_two_pow, Nat.testBit_lor,
      Nat.testBit_two_pow, ih hrest]
    by_cases hj : j < w
    · simp [hj, List.mem_cons, eq_comm]
    · have hnot : ¬ j ∈ i :: rest := fun hmem => hj (hall j hmem)
      simp [hj, hnot]

/-- C7 amended: `Mask` over bit indices that are all within the type's
width yields the word with exactly the listed bit positions set and no
others (0 for the empty list); the build-time variant halts the build
only when the first index is `≥ bitWidth(T)` — later out-of-range
indices are accepted and truncated, as the counterexample shows. -/
theorem mask_bits_exact_and_head_index_checked (w : Nat) (l : List Nat)
    (hall : ∀ i ∈ l, i < w) :
    (∀ j, (maskValue w l).testBit j = decide (j ∈ l)) ∧
    maskAssertOk w l = true ∧
    ∀ i rest, w ≤ i → maskAssertOk w (i :: rest) = false := by
  refine ⟨fun j => maskValue_testBit w l hall j, ?_, ?_⟩
  · cases l with
    | nil => rfl
    | cons i rest => simpa [maskAssertOk] using hall i (by simp)
  · intro i rest hi
    simp [maskAssertOk]
    omega

/-- C7 witness: an 8-bit mask over indices 0, 2 and 7. -/
theorem mask_bits_exact_and_head_index_checked_witness :
    (∀ j, (maskValue 8 [0, 2, 7]).testBit j = decide (j ∈ [0, 2, 7])) ∧
    maskAssertOk 8 [0, 2, 7] = true ∧
    ∀ i rest, 8 ≤ i → maskAssertOk 8 (i :: rest) = false :=
  mask_bits_exact_and_head_index_checked 8 [0, 2, 7] (by decide)

/-- `bits::MultiplicationOverflow(kLHS, kRHS)` (bits.h lines 49-52) on
an unsigned type of width `w`:
`kRHS != 0 && (static_cast<T>(kLHS * kRHS) / kRHS) != kLHS`, the
product being reduced modulo `2 ^ w` by the cast. -/
def multiplicationOverflow (w a b : Nat) : Bool :=
  decide (b ≠ 0) && decide ((a * b % 2 ^ w) / b ≠ a)

/-- C9: the wraparound round-trip test detects overflow exactly: for
`w`-bit unsigned operands it is true iff `b ≠ 0` and the exact product
does not fit in `w` bits; in particular it flags (maxValue, 2) and
clears (2, 3) on the 8-bit type. -/
theorem multiplication_overflow_iff (w a b : Nat)
    (ha : a < 2 ^ w) (hb : b < 2 ^ w) :
    (multiplicationOverflow w a b = true ↔ b ≠ 0 ∧ 2 ^ w ≤ a * b) ∧
    multiplicationOverflow 8 255 2 = true ∧
    multiplicationOverflow 8 2 3 = false := by
  refine ⟨?_, by decide, by decide⟩
  constructor
  · intro h
    simp only [multiplicationOverflow, Bool.and_eq_true,
      decide_eq_true_eq] at h
    obtain ⟨hb0, hdiv⟩ := h
    refine ⟨hb0, ?_⟩
    by_contra hlt
    push_neg at hlt
    apply hdiv
    rw [Nat.mod_eq_of_lt hlt, Nat.mul_div_cancel _ (by omega : 0 < b)]
  · rintro ⟨hb0, hof⟩
    simp only [multiplicationOverflow, Bool.and_eq_true,
      decide_eq_true_eq]
    refine ⟨hb0, ?_⟩
    have hpos : 0 < b := by omega
    have hw0 : 0 < 2 ^ w := by positivity
    have h3 : a * b % 2 ^ w < a * b :=
      lt_of_lt_of_le (Nat.mod_lt _ hw0) hof
    have h4 : (a * b % 2 ^ w) / b < a :=
      (Nat.div_lt_iff_lt_mul hpos).mpr h3
    exact Nat.ne_of_lt h4

/-- C9 witness: the 8-bit instance a = 255, b = 2. -/
theorem multiplication_overflow_iff_witness :
    (multiplicationOverflow 8 255 2 = true ↔
      2 ≠ 0 ∧ 2 ^ 8 ≤ 255 * 2) ∧
    multiplicationOverflow 8 255 2 = true ∧
    multiplicationOverflow 8 2 3 = false :=
  multiplication_overflow_iff 8 255 2 (by decide) (by decide)

/-- `bits::PowerOfTwo(value)` (bits.h lines 59-62):
`value && !(value & (value - 1))`. -/
def powerOfTwo (v : Nat) : Bool :=
  decide (v ≠ 0) && decide (v &&& (v - 1) = 0)

theorem popCountStatic_eq_zero_iff (v : Nat) :
    popCountStatic v = 0 ↔ v = 0 := by
  induction v using Nat.strong_induction_on with
  | _ v ih =>
    rw [popCountStatic]
    by_cases h0 : v = 0
    · simp [h0]
    · rw [if_neg h0]
      constructor
      · intro h
        have h1 : popCountStatic (v / 2) = 0 := by omega
        have h2 := (ih (v / 2) (by omega)).mp h1
        omega
      · intro h
        exact absurd h h0

theorem land_pred_odd (v : Nat) (h : v % 2 = 1) :
    v &&& (v - 1) = v - 1 := by
  apply Nat.eq_of_testBit_eq
  intro i
  cases i with
  | zero =>
    have h1 : (v - 1) % 2 = 0 := by omega
    simp [Nat.testBit_land, Nat.testBit_zero, h, h1]
  | succ j =>
    rw [Nat.testBit_land, Nat.testBit_succ, Nat.testBit_succ]
    have h2 : (v - 1) / 2 = v / 2 := by omega
    rw [h2, Bool.and_self]

theorem land_pred_even (v : Nat) (h : v % 2 = 0) (h0 : v ≠ 0) :
    v &&& (v - 1) = 2 * ((v / 2) &&& (v / 2 - 1)) := by
  apply Nat.eq_of_testBit_eq
  intro i
  cases i with
  | zero =>
    have h1 : (2 * ((v / 2) &&& (v / 2 - 1))) % 2 = 0 := by omega
    simp [Nat.testBit_land, Nat.testBit_zero, h, h1]
  | succ j =>
    rw [Nat.testBit_land, Nat.testBit_succ, Nat.testBit_succ,
      Nat.testBit_succ]
    have h2 : (v - 1) / 2 = v / 2 - 1 := by omega
    have h3 : 2 * ((v / 2) &&& (v / 2 - 1)) / 2 =
        (v / 2) &&& (v / 2 - 1) := by omega
    rw [h2, h3, Nat.testBit_land]

/-- C10: `PowerOfTwo(v)` holds exactly when the population count of
`v` is 1; in particular `PowerOfTwo(0)` is false even though
`0 & (0 - 1) = 0`. -/
theorem powerOfTwo_iff_popCount_one (v : Nat) :
    (powerOfTwo v = true ↔ popCountStatic v = 1) ∧
    powerOfTwo 0 = false ∧ (0 : Nat) &&& (0 - 1) = 0 := by
  refine ⟨?_, by decide, by decide⟩
  induction v using Nat.strong_induction_on with
  | _ v ih =>
    by_cases h0 : v = 0
    · subst h0
      simp [powerOfTwo, popCountStatic]
    · by_cases hodd : v % 2 = 1
      · rw [popCountStatic, if_neg h0]
        simp only [powerOfTwo, Bool.and_eq_true, decide_eq_true_eq]
        rw [land_pred_odd v hodd]
        constructor
        · rintro ⟨-, hz⟩
          have hv1 : v = 1 := by omega
          subst hv1
          simp [popCountStatic]
        · intro hpc
          refine ⟨h0, ?_⟩
          have h1 : popCountStatic (v / 2) = 0 := by omega
          have h2 := (popCountStatic_eq_zero_iff (v / 2)).mp h1
          omega
      · have hx0 : v / 2 ≠ 0 := by omega
        have hihx := ih (v / 2) (by omega)
        rw [popCountStatic, if_neg h0]
        simp only [powerOfTwo, Bool.and_eq_true, decide_eq_true_eq]
          at hihx ⊢
        rw [land_pred_even v (by omega) h0]
        constructor
        · rintro ⟨-, hz⟩
          have hz2 : (v / 2) &&& (v / 2 - 1) = 0 := by omega
          have hres := hihx.mp ⟨hx0, hz2⟩
          omega
        · intro hpc
          refine ⟨h0, ?_⟩
          have h1 : popCountStatic (v / 2) = 1 := by omega
          obtain ⟨-, hh⟩ := hihx.mpr h1
          omega

/-- The number of trailing one bits.  `mpl::LowestBitRun` (mpl.h lines
393-399) computes the run length as `BitScanForward(~(value >> offset))`
— the first zero bit above an all-ones suffix; on the arguments for
which that instantiation compiles (the complement nonzero) it equals
this recursion. -/
def trailingOnes (v : Nat) : Nat :=
  if v % 2 = 1 then 1 + trailingOnes (v / 2) else 0
termination_by v
decreasing_by omega

/-- `mpl::LowestBitRun<Type, value>::offset` (mpl.h lines 393-404):
`BitScanForward(value)`; both are 0 for value 0. -/
def lowestBitRunOffset (m : Nat) : Nat := bitScanForwardStatic m

/-- `mpl::LowestBitRun<Type, value>::length` (mpl.h lines 393-404):
the length of the lowest contiguous run of set bits; 0 for value 0. -/
def lowestBitRunLength (m : Nat) : Nat :=
  trailingOnes (m >>> lowestBitRunOffset m)

/-- The lowest run of `m` in place:
`LowBitMask<Type, length>::value << offset` (mpl.h lines 305-353 and
483-491); `LowBitMask<T, kBits>` has value `2 ^ kBits - 1` in each of
its defined specializations. -/
def lowestRunMask (m : Nat) : Nat :=
  (2 ^ lowestBitRunLength m - 1) <<< lowestBitRunOffset m

theorem trailingOnes_spec (x : Nat) :
    (∀ j, j < trailingOnes x → x.testBit j = true) ∧
    x.testBit (trailingOnes x) = false := by
  induction x using Nat.strong_induction_on with
  | _ x ih =>
    rw [trailingOnes]
    by_cases hx : x % 2 = 1
    · rw [if_pos hx]
      obtain ⟨ih1, ih2⟩ := ih (x / 2) (by omega)
      constructor
      · intro j hj
        cases j with
        | zero => simp [Nat.testBit_zero, hx]
        | succ j' =>
          rw [Nat.testBit_succ]
          exact ih1 j' (by omega)
      · rw [Nat.add_comm 1, Nat.testBit_succ]
        exact ih2
    · rw [if_neg hx]
      exact ⟨fun j hj => absurd hj (by omega),
        by simp [Nat.testBit_zero, hx]⟩

theorem lowestRun_facts (w m : Nat) (hm0 : m ≠ 0) (hmw : m < 2 ^ w) :
    0 < lowestBitRunLength m ∧
    lowestBitRunOffset m + lowestBitRunLength m ≤ w ∧
    (∀ i, i < lowestBitRunOffset m → m.testBit i = false) ∧
    (∀ i, lowestBitRunOffset m ≤ i →
      i < lowestBitRunOffset m + lowestBitRunLength m →
      m.testBit i = true) ∧
    m.testBit (lowestBitRunOffset m + lowestBitRunLength m) = false := by
  obtain ⟨hb1, hb2⟩ := bitScanForwardStatic_spec m hm0
  obtain ⟨ht1, ht2⟩ := trailingOnes_spec (m >>> lowestBitRunOffset m)
  have hshift : ∀ j, (m >>> lowestBitRunOffset m).testBit j =
      m.testBit (lowestBitRunOffset m + j) := fun j =>
    Nat.testBit_shiftRight m
  have hbit0 : (m >>> lowestBitRunOffset m).testBit 0 = true := by
    rw [hshift 0, Nat.add_zero]
    exact hb1
  have hL : lowestBitRunLength m =
      trailingOnes (m >>> lowestBitRunOffset m) := rfl
  have hlen : 0 < lowestBitRunLength m := by
    rw [hL]
    by_contra hc
    have hz : trailingOnes (m >>> lowestBitRunOffset m) = 0 := by omega
    rw [hz, hbit0] at ht2
    simp at ht2
  have hrun : ∀ i, lowestBitRunOffset m ≤ i →
      i < lowestBitRunOffset m + lowestBitRunLength m →
      m.testBit i = true := by
    intro i h1 h2
    rw [hL] at h2
    have h3 := ht1 (i - lowestBitRunOffset m) (by omega)
    rw [hshift] at h3
    have h4 : lowestBitRunOffset m + (i - lowestBitRunOffset m) = i := by
      omega
    rwa [h4] at h3
  have htop : m.testBit
      (lowestBitRunOffset m + lowestBitRunLength m) = false := by
    rw [hL]
    have h5 := ht2
    rwa [hshift] at h5
  refine ⟨hlen, ?_, hb2, hrun, htop⟩
  by_contra hc
  have h1 : m.testBit
      (lowestBitRunOffset m + lowestBitRunLength m - 1) = true :=
    hrun _ (by omega) (by omega)
  have h2 := Nat.testBit_implies_ge h1
  have h3 : (2 : Nat) ^ w ≤
      2 ^ (lowestBitRunOffset m + lowestBitRunLength m - 1) :=
    Nat.pow_le_pow_right (by omega) (by omega)
  omega

theorem lowestRunMask_testBit (m i : Nat) :
    (lowestRunMask m).testBit i =
      (decide (lowestBitRunOffset m ≤ i) &&
        decide (i < lowestBitRunOffset m + lowestBitRunLength m)) := by
  simp only [lowestRunMask, Nat.testBit_shiftLeft,
    Nat.testBit_two_pow_sub_one, ge_iff_le]
  rcases le_or_lt (lowestBitRunOffset m) i with h | h
  · simp only [decide_eq_true h, Bool.true_and]
    exact decide_eq_decide.mpr (by omega)
  · have h1 : ¬ lowestBitRunOffset m ≤ i := by omega
    simp [h1]

theorem remainingMask_testBit (w m : Nat) (hm0 : m ≠ 0)
    (hmw : m < 2 ^ w) (i : Nat) :
    (m &&& complement w (lowestRunMask m)).testBit i =
      (decide (lowestBitRunOffset m + lowestBitRunLength m ≤ i) &&
        m.testBit i) := by
  obtain ⟨hlen, hlew, hlow, hrun, htop⟩ := lowestRun_facts w m hm0 hmw
  rw [Nat.testBit_land, testBit_complement, lowestRunMask_testBit]
  by_cases hi : i < w
  · by_cases h1 : i < lowestBitRunOffset m
    · rw [hlow i h1]
      have h2 : ¬ lowestBitRunOffset m ≤ i := by omega
      simp [h2]
    · by_cases h2 : i < lowestBitRunOffset m + lowestBitRunLength m
      · have h3 : ¬ lowestBitRunOffset m + lowestBitRunLength m ≤ i := by
          omega
        simp [decide_eq_true (by omega : lowestBitRunOffset m ≤ i),
          decide_eq_true h2, decide_eq_true hi, h3]
      · have h3 : lowestBitRunOffset m + lowestBitRunLength m ≤ i := by
          omega
        simp [decide_eq_true h3, decide_eq_true hi, h2,
          Bool.and_comm]
  · rw [testBit_eq_false_of_lt m w i hmw (by omega)]
    simp

theorem remainingMask_lt (w m : Nat) (hm0 : m ≠ 0) (hmw : m < 2 ^ w) :
    m &&& complement w (lowestRunMask m) < m := by
  obtain ⟨hlen, hlew, hlow, hrun, htop⟩ := lowestRun_facts w m hm0 hmw
  have hle : m &&& complement w (lowestRunMask m) ≤ m := Nat.and_le_left
  have hne : m &&& complement w (lowestRunMask m) ≠ m := by
    intro heq
    have h1 := remainingMask_testBit w m hm0 hmw (lowestBitRunOffset m)
    rw [heq] at h1
    have h2 : m.testBit (lowestBitRunOffset m) = true :=
      hrun _ le_rfl (by omega)
    rw [h2] at h1
    have h3 : ¬ lowestBitRunOffset m + lowestBitRunLength m ≤
        lowestBitRunOffset m := by omega
    simp [h3] at h1
  omega

/-- The `static_assert(sizeof(Type) < 0, "Argh.")` path of
`mpl::BitScanForward` (mpl.h lines 377-381) as `BitField` instantiates
it through `LowestBitRun`: for a nonzero remaining mask the run-length
computation is `BitScanForward<Type, ~(mask >> offset)>`, which selects
the halting zero specialization exactly when the width-`w` complement
of `mask >> offset` is zero; otherwise the `BitField` recursion
continues on the mask with its lowest run removed.  `true` means the
diagnostic fires and the build stops. -/
def bitFieldHalts (w m : Nat) : Bool :=
  if h : m = 0 ∨ 2 ^ w ≤ m then false
  else
    if complement w (m >>> lowestBitRunOffset m) = 0 then true
    else bitFieldHalts w (m &&& complement w (lowestRunMask m))
termination_by m
decreasing_by
  have hm0 : m ≠ 0 := fun hz => h (Or.inl hz)
  have hmw : m < 2 ^ w := by omega
  exact remainingMask_lt w m hm0 hmw

theorem bitFieldHalts_iff_full (w : Nat) (hw : 0 < w) : ∀ m, m < 2 ^ w →
    (bitFieldHalts w m = true ↔ m = 2 ^ w - 1) := by
  intro m
  induction m using Nat.strong_induction_on with
  | _ m ih =>
    intro hmw
    rw [bitFieldHalts]
    by_cases hg : m = 0 ∨ 2 ^ w ≤ m
    · rw [dif_pos hg]
      have hm0 : m = 0 := by omega
      have h2 : (2 : Nat) ^ 1 ≤ 2 ^ w := Nat.pow_le_pow_right (by omega) hw
      constructor
      · intro hfalse
        exact absurd hfalse (by simp)
      · intro hfull
        exfalso
        omega
    · rw [dif_neg hg]
      have hm0 : m ≠ 0 := fun hz => hg (Or.inl hz)
      by_cases hc : complement w (m >>> lowestBitRunOffset m) = 0
      · rw [if_pos hc]
        have hms : m >>> lowestBitRunOffset m = 2 ^ w - 1 := by
          rw [complement] at hc
          exact (Nat.xor_eq_zero.mp hc).symm
        have hge : 2 ^ w - 1 ≤ m := by
          rw [Nat.shiftRight_eq_div_pow] at hms
          have h3 := Nat.div_le_self m (2 ^ lowestBitRunOffset m)
          omega
        constructor
        · intro _
          omega
        · intro _
          rfl
      · rw [if_neg hc]
        have hm'lt := remainingMask_lt w m hm0 (by omega)
        rw [ih _ hm'lt (lt_of_le_of_lt Nat.and_le_left (by omega))]
        constructor
        · intro hfull
          exfalso
          omega
        · intro hfull
          exfalso
          apply hc
          subst hfull
          have hoff : lowestBitRunOffset (2 ^ w - 1) = 0 := by
            have hodd : (2 ^ w - 1) % 2 = 1 := by
              obtain ⟨w', rfl⟩ : ∃ w', w = w' + 1 := ⟨w - 1, by omega⟩
              have h2 : (2 : Nat) ^ (w' + 1) = 2 ^ w' * 2 := pow_succ 2 w'
              have h3 : 0 < 2 ^ w' := by positivity
              omega
            unfold lowestBitRunOffset
            rw [bitScanForwardStatic, if_pos (Or.inr hodd)]
          rw [hoff, Nat.shiftRight_zero, complement, Nat.xor_self]

theorem popCountStatic_two_mul (x : Nat) :
    popCountStatic (2 * x) = popCountStatic x := by
  rcases eq_or_ne x 0 with h | h
  · subst h
    simp [popCountStatic]
  · rw [popCountStatic]
    rw [if_neg (by omega : ¬ 2 * x = 0)]
    have h1 : 2 * x % 2 = 0 := by omega
    have h2 : 2 * x / 2 = x := by omega
    rw [h1, h2]
    omega

theorem popCountStatic_shiftLeft (x k : Nat) :
    popCountStatic (x <<< k) = popCountStatic x := by
  rw [Nat.shiftLeft_eq]
  induction k with
  | zero => simp
  | succ k ih =>
    have h : x * 2 ^ (k + 1) = 2 * (x * 2 ^ k) := by ring
    rw [h, popCountStatic_two_mul, ih]

theorem popCountStatic_trailingOnes (x : Nat) :
    popCountStatic x =
      trailingOnes x + popCountStatic (x >>> trailingOnes x) := by
  induction x using Nat.strong_induction_on with
  | _ x ih =>
    rw [trailingOnes]
    by_cases hx : x % 2 = 1
    · rw [if_pos hx]
      have h0 : x ≠ 0 := by omega
      rw [popCountStatic, if_neg h0]
      rw [ih (x / 2) (by omega)]
      have hs : x >>> (1 + trailingOnes (x / 2)) =
          (x / 2) >>> trailingOnes (x / 2) := by
        rw [Nat.shiftRight_add]
        rw [show x >>> 1 = x / 2 from by
          rw [Nat.shiftRight_succ, Nat.shiftRight_zero]]
      rw [hs, hx]
      omega
    · rw [if_neg hx]
      simp [Nat.shiftRight_zero]

theorem popCountStatic_run_split (w m : Nat) (hm0 : m ≠ 0)
    (hmw : m < 2 ^ w) :
    popCountStatic m = lowestBitRunLength m +
      popCountStatic (m &&& complement w (lowestRunMask m)) := by
  obtain ⟨hlen, hlew, hlow, hrun, htop⟩ := lowestRun_facts w m hm0 hmw
  have hL : lowestBitRunLength m =
      trailingOnes (m >>> lowestBitRunOffset m) := rfl
  have hm_eq : m =
      (m >>> lowestBitRunOffset m) <<< lowestBitRunOffset m := by
    apply Nat.eq_of_testBit_eq
    intro i
    rw [Nat.testBit_shiftLeft]
    by_cases hi : lowestBitRunOffset m ≤ i
    · rw [Nat.testBit_shiftRight]
      have h4 : lowestBitRunOffset m + (i - lowestBitRunOffset m) = i :=
        by omega
      rw [h4]
      simp [ge_iff_le, decide_eq_true hi]
    · have h5 : m.testBit i = false := hlow i (by omega)
      simp [h5, ge_iff_le, hi]
  have hm'_eq : m &&& complement w (lowestRunMask m) =
      (m >>> (lowestBitRunOffset m + lowestBitRunLength m)) <<<
        (lowestBitRunOffset m + lowestBitRunLength m) := by
    apply Nat.eq_of_testBit_eq
    intro i
    rw [remainingMask_testBit w m hm0 hmw i, Nat.testBit_shiftLeft,
      Nat.testBit_shiftRight]
    by_cases hi : lowestBitRunOffset m + lowestBitRunLength m ≤ i
    · have h4 : lowestBitRunOffset m + lowestBitRunLength m +
          (i - (lowestBitRunOffset m + lowestBitRunLength m)) = i := by
        omega
      rw [h4]
    · simp [ge_iff_le, hi]
  calc popCountStatic m
      = popCountStatic ((m >>> lowestBitRunOffset m) <<<
          lowestBitRunOffset m) := by rw [← hm_eq]
    _ = popCountStatic (m >>> lowestBitRunOffset m) :=
        popCountStatic_shiftLeft _ _
    _ = trailingOnes (m >>> lowestBitRunOffset m) +
        popCountStatic ((m >>> lowestBitRunOffset m) >>>
          trailingOnes (m >>> lowestBitRunOffset m)) :=
        popCountStatic_trailingOnes _
    _ = lowestBitRunLength m + popCountStatic
          (m &&& complement w (lowestRunMask m)) := by
        rw [hm'_eq, popCountStatic_shiftLeft, ← Nat.shiftRight_add, hL]

/-- `detail::BitField<Type, mask_, value_>::bits` (mpl.h lines
480-498): the logical value's low bits spread into the mask's runs,
lowest run first — take the lowest run of the remaining mask, place
that many low bits of the remaining value at the run's offset, then
recurse with the run removed from the mask and the value shifted down
by the run length; the empty mask contributes 0.  This is the
computation the spec names `ToField(mask, logicalValue)` (the
`toField` member of `BitMask`, bits.h line 702, is a TODO; `BitField`
holds the algorithm).  The mask is a value of the `w`-bit type, hence
`< 2 ^ w`; out-of-domain arguments yield 0.  When `bitFieldHalts` is
true — within the domain, exactly at the all-ones mask — the source
instantiation fires the `Argh.` static_assert and defines no bits
value; the value computed here for that mask is a total extension on
which the claim theorem does not rely (its round-trip conclusion is
guarded by `bitFieldHalts w m = false`). -/
def toField (w m v : Nat) : Nat :=
  if h : m = 0 ∨ 2 ^ w ≤ m then 0
  else
    ((v &&& (2 ^ lowestBitRunLength m - 1)) <<< lowestBitRunOffset m) |||
      toField w (m &&& complement w (lowestRunMask m))
        (v >>> lowestBitRunLength m)
termination_by m
decreasing_by
  have hm0 : m ≠ 0 := fun hz => h (Or.inl hz)
  have hmw : m < 2 ^ w := by omega
  exact remainingMask_lt w m hm0 hmw

/-- Modelled from the spec: the inverse extraction of `ToField` —
"extracting those same runs back out of the result (right-aligning
them in run order)": take the lowest run of the remaining mask, pull
its bits out of the packed word down to bit 0, and place the bits of the
further runs immediately above them.  (The `fromField` member of
`BitMask`, bits.h line 702, is a TODO in the source.) -/
def fromField (w m d : Nat) : Nat :=
  if h : m = 0 ∨ 2 ^ w ≤ m then 0
  else
    ((d >>> lowestBitRunOffset m) &&& (2 ^ lowestBitRunLength m - 1)) |||
      (fromField w (m &&& complement w (lowestRunMask m)) d <<<
        lowestBitRunLength m)
termination_by m
decreasing_by
  have hm0 : m ≠ 0 := fun hz => h (Or.inl hz)
  have hmw : m < 2 ^ w := by omega
  exact remainingMask_lt w m hm0 hmw

theorem toField_subset (w m : Nat) : ∀ v i,
    (toField w m v).testBit i = true → m.testBit i = true := by
  induction m using Nat.strong_induction_on with
  | _ m ih =>
    intro v i h
    rw [toField] at h
    by_cases hg : m = 0 ∨ 2 ^ w ≤ m
    · rw [dif_pos hg] at h
      simp [Nat.zero_testBit] at h
    · rw [dif_neg hg] at h
      have hm0 : m ≠ 0 := fun hz => hg (Or.inl hz)
      have hmw : m < 2 ^ w := by omega
      obtain ⟨hlen, hlew, hlow, hrun, htop⟩ :=
        lowestRun_facts w m hm0 hmw
      rw [Nat.testBit_lor] at h
      simp only [Bool.or_eq_true] at h
      rcases h with hA | hB
      · rw [Nat.testBit_shiftLeft] at hA
        simp only [Nat.testBit_land, Nat.testBit_two_pow_sub_one,
          ge_iff_le, Bool.and_eq_true, decide_eq_true_eq] at hA
        exact hrun i hA.1 (by omega)
      · have hm'B := ih (m &&& complement w (lowestRunMask m))
          (remainingMask_lt w m hm0 hmw) _ _ hB
        rw [remainingMask_testBit w m hm0 hmw i] at hm'B
        simp only [Bool.and_eq_true] at hm'B
        exact hm'B.2

theorem fromField_congr (w m : Nat) : ∀ d₁ d₂, m < 2 ^ w →
    (∀ i, m.testBit i = true → d₁.testBit i = d₂.testBit i) →
    fromField w m d₁ = fromField w m d₂ := by
  induction m using Nat.strong_induction_on with
  | _ m ih =>
    intro d₁ d₂ hmw h
    rw [fromField]
    rw [show fromField w m d₂ = _ from by rw [fromField]]
    by_cases hg : m = 0 ∨ 2 ^ w ≤ m
    · rw [dif_pos hg, dif_pos hg]
    · rw [dif_neg hg, dif_neg hg]
      have hm0 : m ≠ 0 := fun hz => hg (Or.inl hz)
      obtain ⟨hlen, hlew, hlow, hrun, htop⟩ :=
        lowestRun_facts w m hm0 hmw
      have hpart1 : (d₁ >>> lowestBitRunOffset m) &&&
          (2 ^ lowestBitRunLength m - 1) =
          (d₂ >>> lowestBitRunOffset m) &&&
          (2 ^ lowestBitRunLength m - 1) := by
        apply Nat.eq_of_testBit_eq
        intro j
        rw [Nat.testBit_land, Nat.testBit_land, Nat.testBit_shiftRight,
          Nat.testBit_shiftRight, Nat.testBit_two_pow_sub_one]
        by_cases hj : j < lowestBitRunLength m
        · rw [h (lowestBitRunOffset m + j)
            (hrun _ (by omega) (by omega))]
        · simp [hj]
      have hpart2 : fromField w
          (m &&& complement w (lowestRunMask m)) d₁ =
          fromField w (m &&& complement w (lowestRunMask m)) d₂ := by
        apply ih _ (remainingMask_lt w m hm0 hmw) d₁ d₂
          (lt_of_le_of_lt Nat.and_le_left hmw)
        intro i hi
        rw [remainingMask_testBit w m hm0 hmw i] at hi
        simp only [Bool.and_eq_true] at hi
        exact h i hi.2
      rw [hpart1, hpart2]

theorem toField_fromField_aux (w m : Nat) : ∀ v, m < 2 ^ w →
    v < 2 ^ popCountStatic m → fromField w m (toField w m v) = v := by
  induction m using Nat.strong_induction_on with
  | _ m ih =>
    intro v hmw hv
    by_cases hg : m = 0 ∨ 2 ^ w ≤ m
    · have hm0 : m = 0 := by omega
      subst hm0
      rw [fromField, dif_pos (Or.inl rfl)]
      have hpc : popCountStatic 0 = 0 := by simp [popCountStatic]
      rw [hpc] at hv
      have h1 : (2 : Nat) ^ 0 = 1 := rfl
      omega
    · have hm0 : m ≠ 0 := fun hz => hg (Or.inl hz)
      obtain ⟨hlen, hlew, hlow, hrun, htop⟩ :=
        lowestRun_facts w m hm0 hmw
      have hsplit := popCountStatic_run_split w m hm0 hmw
      have hm'w : m &&& complement w (lowestRunMask m) < 2 ^ w :=
        lt_of_le_of_lt Nat.and_le_left hmw
      rw [toField, dif_neg hg, fromField, dif_neg hg]
      have hstep1 : ((((v &&& (2 ^ lowestBitRunLength m - 1)) <<<
          lowestBitRunOffset m) |||
          toField w (m &&& complement w (lowestRunMask m))
            (v >>> lowestBitRunLength m)) >>>
          lowestBitRunOffset m) &&& (2 ^ lowestBitRunLength m - 1) =
          v &&& (2 ^ lowestBitRunLength m - 1) := by
        apply Nat.eq_of_testBit_eq
        intro j
        rw [Nat.testBit_land, Nat.testBit_land, Nat.testBit_shiftRight,
          Nat.testBit_two_pow_sub_one]
        by_cases hj : j < lowestBitRunLength m
        · rw [Nat.testBit_lor]
          have hA : ((v &&& (2 ^ lowestBitRunLength m - 1)) <<<
              lowestBitRunOffset m).testBit
              (lowestBitRunOffset m + j) = v.testBit j := by
            rw [Nat.testBit_shiftLeft]
            have h4 : lowestBitRunOffset m + j - lowestBitRunOffset m =
                j := by omega
            rw [h4, Nat.testBit_land, Nat.testBit_two_pow_sub_one]
            simp [ge_iff_le, Nat.le_add_right, hj]
          have hB0 : (toField w
              (m &&& complement w (lowestRunMask m))
              (v >>> lowestBitRunLength m)).testBit
              (lowestBitRunOffset m + j) = false := by
            cases hc : (toField w
                (m &&& complement w (lowestRunMask m))
                (v >>> lowestBitRunLength m)).testBit
                (lowestBitRunOffset m + j) with
            | false => rfl
            | true =>
              have h5 := toField_subset w
                (m &&& complement w (lowestRunMask m)) _ _ hc
              rw [remainingMask_testBit w m hm0 hmw _] at h5
              simp only [Bool.and_eq_true, decide_eq_true_eq] at h5
              exact absurd h5.1 (by omega)
          rw [hA, hB0]
          simp
        · simp [hj]
      have hstep2 : fromField w
          (m &&& complement w (lowestRunMask m))
          (((v &&& (2 ^ lowestBitRunLength m - 1)) <<<
            lowestBitRunOffset m) |||
            toField w (m &&& complement w (lowestRunMask m))
              (v >>> lowestBitRunLength m)) =
          fromField w (m &&& complement w (lowestRunMask m))
            (toField w (m &&& complement w (lowestRunMask m))
              (v >>> lowestBitRunLength m)) := by
        apply fromField_congr w
          (m &&& complement w (lowestRunMask m)) _ _ hm'w
        intro i hi
        rw [remainingMask_testBit w m hm0 hmw i] at hi
        simp only [Bool.and_eq_true, decide_eq_true_eq] at hi
        rw [Nat.testBit_lor]
        have hA0 : ((v &&& (2 ^ lowestBitRunLength m - 1)) <<<
            lowestBitRunOffset m).testBit i = false := by
          rw [Nat.testBit_shiftLeft]
          by_cases hio : lowestBitRunOffset m ≤ i
          · rw [Nat.testBit_land, Nat.testBit_two_pow_sub_one]
            have h6 : ¬ (i - lowestBitRunOffset m <
                lowestBitRunLength m) := by omega
            simp [h6]
          · simp [ge_iff_le, hio]
        rw [hA0, Bool.false_or]
      have hstep3 : fromField w
          (m &&& complement w (lowestRunMask m))
          (toField w (m &&& complement w (lowestRunMask m))
            (v >>> lowestBitRunLength m)) =
          v >>> lowestBitRunLength m := by
        apply ih _ (remainingMask_lt w m hm0 hmw) _ hm'w
        rw [Nat.shiftRight_eq_div_pow]
        rw [hsplit] at hv
        rw [Nat.div_lt_iff_lt_mul
          (by positivity : (0 : Nat) < 2 ^ lowestBitRunLength m)]
        have hpow : (2 : Nat) ^ (lowestBitRunLength m +
            popCountStatic (m &&& complement w (lowestRunMask m))) =
            2 ^ popCountStatic (m &&& complement w (lowestRunMask m)) *
              2 ^ lowestBitRunLength m := by
          rw [pow_add]
          ring
        exact lt_of_lt_of_le hv (le_of_eq hpow)
      rw [hstep1, hstep2, hstep3]
      apply Nat.eq_of_testBit_eq
      intro j
      rw [Nat.testBit_lor, Nat.testBit_land, Nat.testBit_two_pow_sub_one,
        Nat.testBit_shiftLeft]
      by_cases hj : j < lowestBitRunLength m
      · have h7 : ¬ lowestBitRunLength m ≤ j := by omega
        simp [hj, ge_iff_le, h7]
      · rw [Nat.testBit_shiftRight]
        have h8 : lowestBitRunLength m + (j - lowestBitRunLength m) =
            j := by omega
        rw [h8]
        simp [hj, ge_iff_le, (by omega : lowestBitRunLength m ≤ j)]

/-- C8 counterexample: at the all-ones 8-bit mask the `BitField`
instantiation halts the build — `LowestBitRun`'s length computation is
`BitScanForward<Type, ~(0xFF >> 0)>` = `BitScanForward<Type, 0>`,
which fires the `Argh.` static_assert (mpl.h line 380) — although a
logical value fitting its population count exists (0 does), so the
round trip claimed for every mask cannot even be instantiated there. -/
theorem full_mask_spread_halts_build :
    bitFieldHalts 8 255 = true ∧ (0 : Nat) < 2 ^ popCountStatic 255 := by
  constructor
  · have hoff : lowestBitRunOffset 255 = 0 := by
      unfold lowestBitRunOffset
      unfold bitScanForwardStatic
      norm_num
    rw [bitFieldHalts, dif_neg (by norm_num), hoff, Nat.shiftRight_zero]
    norm_num [complement, Nat.xor_self]
  · positivity

/-- C8 (amended): `BitField`'s packing (the spec's `ToField`) writes
only into the mask's bit positions, and the run-by-run extraction is
exact for every mask whose `BitField` instantiation compiles:
`bitFieldHalts` is true exactly on the all-ones mask, and for every
mask on which the build does not halt and every logical value fitting
in the mask's population count, extracting the runs back out of the
packed result recovers the logical value exactly. -/
theorem toField_spread_and_round_trip (w m v : Nat) (hw : 0 < w)
    (hmw : m < 2 ^ w) (hv : v < 2 ^ popCountStatic m) :
    (bitFieldHalts w m = true ↔ m = 2 ^ w - 1) ∧
    (bitFieldHalts w m = false →
      (∀ i, (toField w m v).testBit i = true → m.testBit i = true) ∧
      fromField w m (toField w m v) = v) :=
  ⟨bitFieldHalts_iff_full w hw m hmw,
    fun _ => ⟨toField_subset w m v, toField_fromField_aux w m v hmw hv⟩⟩

/-- C8 witness: the 8-bit mask 0b110011 (two runs split by a gap,
not the halting all-ones mask) and logical value 13, which fits in its
population count of 4. -/
theorem toField_spread_and_round_trip_witness :
    (bitFieldHalts 8 51 = true ↔ (51 : Nat) = 2 ^ 8 - 1) ∧
    (bitFieldHalts 8 51 = false →
      (∀ i, (toField 8 51 13).testBit i = true →
        Nat.testBit 51 i = true) ∧
      fromField 8 51 (toField 8 51 13) = 13) :=
  toField_spread_and_round_trip 8 51 13 (by decide) (by decide)
    (by repeat (unfold popCountStatic; norm_num))
